import Mathlib

/-!
Verification of the Ligretto tournament scheduler and scoring pipeline
(src/main.py) against its design specification.

Modelling choices, uniform across the file:
* scores (the Punkte column) are rationals, standing for Python floats on the
  exact arithmetic the program performs (means, subtraction, running sums);
* the two permutations drawn by random.shuffle in the design generator are
  explicit parameters; a theorem quantifies over all permutations of range n,
  covering every possible draw;
* Python operations that can raise are embedded in Except (list indexing) or
  take the surrounding try/except into account (float parsing);
* the statsmodels call mixedlm(...).fit() and the builtin float() are external
  library routines, not code of this repository: each is abstracted as an
  explicit function parameter of the step that invokes it.
-/

namespace Ligretto

/-- One observation row of the ledger DataFrame df_all, columns Block, Runde
(global round), Spieler, Platz, Punkte, plus the computed columns
Punkte_vorhergesagt and Punkte_korr, absent until a correction pass fills
them. -/
structure Row where
  block : Nat
  runde : Nat
  spieler : Nat
  platz : Nat
  punkte : Rat
  vorhergesagt : Option Rat
  korr : Option Rat
deriving DecidableEq

/-- Lines 12-13 of main.py: the canonical cyclic Latin square with
cell (i, j) = (i + j) % n. -/
def cyclicSquare (n : Nat) : List (List Nat) :=
  (List.range n).map (fun i => (List.range n).map (fun j => (i + j) % n))

/-- Lines 16-20: relabel every cell through the shuffled symbol permutation,
L[i][j] = symbol_perm[L[i][j]]. -/
def relabelSymbols (symbol_perm : List Nat) (L : List (List Nat)) : List (List Nat) :=
  L.map (fun row => row.map (fun v => symbol_perm.getD v 0))

/-- Lines 22-29: reorder every row through the shuffled column permutation,
new row = [row[col] for col in col_perm]. -/
def permuteColumns (col_perm : List Nat) (L : List (List Nat)) : List (List Nat) :=
  L.map (fun row => col_perm.map (fun c => row.getD c 0))

/-- Lines 6-31, generate_random_latin_square(n). The permutations produced by
the two random.shuffle calls are the parameters symbol_perm and col_perm. -/
def generate_random_latin_square (n : Nat) (symbol_perm col_perm : List Nat) :
    List (List Nat) :=
  permuteColumns col_perm (relabelSymbols symbol_perm (cyclicSquare n))

/-- Column j of a matrix held as a list of rows. -/
def matCol (L : List (List Nat)) (j : Nat) : List Nat :=
  L.map (fun row => row.getD j 0)

/-- One row of the seating plan DataFrame: columns Runde, Platz, Spieler
(the player here is the symbol index mapped through the players list). -/
structure PlanRow where
  runde : Nat
  platz : Nat
  spieler : Nat
deriving DecidableEq

/-- Errors raised by Python list indexing. -/
inductive PyErr where
  | indexError
deriving DecidableEq

/-- Python list indexing l[i], which raises IndexError when out of range. -/
def pyGet {α : Type} (l : List α) (i : Nat) : Except PyErr α :=
  match l[i]? with
  | some a => Except.ok a
  | none => Except.error PyErr.indexError

/-- Lines 41-49 of create_seating_plan: flatten a Latin square into plan rows.
The loop bounds come from n = len(players); every access latin_sq[r][seat] and
players[player_idx] is Python indexing and can raise IndexError. -/
def plan_from (latin_sq : List (List Nat)) (players : List Nat) :
    Except PyErr (List PlanRow) := do
  let n := players.length
  let rows ← (List.range n).mapM (fun r =>
    (List.range n).mapM (fun seat => do
      let lrow ← pyGet latin_sq r
      let player_idx ← pyGet lrow seat
      let p ← pyGet players player_idx
      pure (PlanRow.mk (r + 1) (seat + 1) p)))
  pure rows.flatten

/-- Lexicographic (Runde, Platz) comparison used by
sort_values(by=["Runde", "Platz"]). -/
def planLE (a b : PlanRow) : Bool :=
  decide (a.runde < b.runde ∨ (a.runde = b.runde ∧ a.platz ≤ b.platz))

/-- Lines 33-52, create_seating_plan(players): n = len(players), the Latin
square is generated from that same n, and the flattened rows are sorted by
(Runde, Platz). -/
def create_seating_plan (players : List Nat) (symbol_perm col_perm : List Nat) :
    Except PyErr (List PlanRow) := do
  let latin_sq := generate_random_latin_square players.length symbol_perm col_perm
  let plan ← plan_from latin_sq players
  pure (plan.mergeSort planLE)

/-- Lines 84-88: parse the typed score with float(), substituting 0.0 when a
ValueError is raised. The float() builtin is external; it is the parameter
parseFloat, returning none where Python float() raises ValueError. -/
def readPunkte (parseFloat : String → Option Rat) (eingabe : String) : Rat :=
  match parseFloat eingabe with
  | some punkte => punkte
  | none => 0

/-- Lines 80-89: collect one score per plan row of the round into punkte_dict,
keyed by player; eingaben is the text typed at the prompt for each player. -/
def collectScores (parseFloat : String → Option Rat) (eingaben : Nat → String)
    (round_plan : List PlanRow) : List (Nat × Rat) :=
  round_plan.map (fun row => (row.spieler, readPunkte parseFloat (eingaben row.spieler)))

/-- Lines 92-100: append one ledger row per plan row of the round, with
Block = block_count, Runde = r + (block_count - 1) * n (the global round
number), and Punkte looked up in punkte_dict by player. -/
def appendRound (df_all : List Row) (round_plan : List PlanRow)
    (block_count n r : Nat) (punkte_dict : Nat → Rat) : List Row :=
  df_all ++ round_plan.map (fun row =>
    Row.mk block_count (r + (block_count - 1) * n) row.spieler row.platz
      (punkte_dict row.spieler) none none)

/-- Line 111's df_all.groupby("Platz")["Punkte"].transform("mean"): the mean
of Punkte over the rows sharing the given Platz. -/
def seatMean (df_all : List Row) (platz : Nat) : Rat :=
  let grp := df_all.filter (fun row => decide (row.platz = platz))
  (grp.map Row.punkte).sum / (grp.length : Rat)

/-- Line 111: the naive correction, Punkte_korr = Punkte minus the per-Platz
mean; Punkte_vorhergesagt is not written by this branch. -/
def naiveCorrect (df_all : List Row) : List Row :=
  df_all.map (fun row => { row with korr := some (row.punkte - seatMean df_all row.platz) })

/-- Line 103's df_all["Runde"].nunique(): the number of distinct global
rounds in the ledger. -/
def nuniqueRunde (df_all : List Row) : Nat :=
  ((df_all.map Row.runde).dedup).length

/-- Failure of the external model fit, line 105. -/
inductive FitError where
  | fitFailure
deriving DecidableEq

/-- Lines 102-111: one correction pass over the whole ledger. The call
mixedlm("Punkte ~ C(Platz)", data=df_all, groups=df_all["Spieler"]).fit() is
external numerical code, abstracted as the parameter fit, which returns the
per-row fitted values of the converged model, or none when the fit raises.
Line 105 runs the fit with no exception handler, so a raising fit propagates
out of the pass as an error. -/
def correctionStep (fit : List Row → Option (List Rat)) (df_all : List Row) :
    Except FitError (List Row) :=
  if 2 ≤ nuniqueRunde df_all then
    match fit df_all with
    | none => Except.error FitError.fitFailure
    | some fittedvalues =>
        Except.ok ((df_all.zip fittedvalues).map (fun rf =>
          { rf.1 with vorhergesagt := some rf.2, korr := some (rf.1.punkte - rf.2) }))
  else
    Except.ok (naiveCorrect df_all)

/-- Punkte_korr value read back from a ledger row (each correction pass
populates it for every row). -/
def kval (row : Row) : Rat := (Row.korr row).getD 0

/-- Group key (Runde, Spieler) of line 114's groupby. -/
def aggKey (row : Row) : Nat × Nat := (row.runde, row.spieler)

/-- Lexicographic order on (Runde, Spieler) keys: the order in which
groupby(["Runde", "Spieler"], as_index=False) emits its groups. -/
def keyLE (a b : Nat × Nat) : Bool :=
  decide (a.1 < b.1 ∨ (a.1 = b.1 ∧ a.2 ≤ b.2))

/-- Distinct (Runde, Spieler) keys of the ledger, sorted as pandas groupby
sorts its group keys. -/
def aggKeys (df_all : List Row) : List (Nat × Nat) :=
  ((df_all.map aggKey).dedup).mergeSort keyLE

/-- One row of df_agg: Runde, Spieler and the summed Punkte_korr. -/
structure AggRow where
  runde : Nat
  spieler : Nat
  korr : Rat
deriving DecidableEq

/-- Summed Punkte_korr over the ledger rows with the given Runde and
Spieler. -/
def sumKorrAt (df_all : List Row) (r p : Nat) : Rat :=
  ((df_all.filter (fun row => decide (row.runde = r ∧ row.spieler = p))).map kval).sum

/-- Line 114: df_agg = df_all.groupby(["Runde", "Spieler"],
as_index=False)["Punkte_korr"].sum(). -/
def df_agg (df_all : List Row) : List AggRow :=
  (aggKeys df_all).map (fun k => AggRow.mk k.1 k.2 (sumKorrAt df_all k.1 k.2))

/-- Line 115: each row of df_agg paired with its
df_agg.groupby("Spieler")["Punkte_korr"].cumsum() value — the running sum of
Punkte_korr over the df_agg rows up to and including position i that share
row i's Spieler. -/
def df_agg_cum (df_all : List Row) : List (AggRow × Rat) :=
  let ags := df_agg df_all
  ags.mapIdx (fun i a =>
    (a, (((ags.take (i + 1)).filter (fun b => decide (b.spieler = a.spieler))).map
      AggRow.korr).sum))

/-- Line 116's pivot row index: the distinct Runde values of df_agg, in the
ascending order pandas gives the pivot index. -/
def pivotRounds (df_all : List Row) : List Nat :=
  (((df_agg df_all).map AggRow.runde).dedup).mergeSort (fun a b => decide (a ≤ b))

/-- Line 116's pivot columns: the distinct Spieler values of df_agg. -/
def pivotSpieler (df_all : List Row) : List Nat :=
  (((df_agg df_all).map AggRow.spieler).dedup).mergeSort (fun a b => decide (a ≤ b))

/-- Line 116: one cell of pivot_cum = df_agg.pivot(index="Runde",
columns="Spieler", values="Punkte_korr_cum").fillna(0) — the cumulative value
when the (Runde, Spieler) pair occurs in df_agg, and the fillna value 0
otherwise. -/
def pivotValue (df_all : List Row) (r p : Nat) : Rat :=
  match (df_agg_cum df_all).find? (fun e => decide (e.1.runde = r ∧ e.1.spieler = p)) with
  | some e => e.2
  | none => 0

/-- Spieler entry the flattening loop produces at round index r and seat
index s (players[latin_sq[r][s]]), written with defaulted lookups; it agrees
with the loop whenever the indexing is in range. -/
def planSpieler (latin_sq : List (List Nat)) (players : List Nat) (r s : Nat) : Nat :=
  players.getD ((latin_sq.getD r []).getD s 0) 0

/-- Closed form of the list of plan rows the flattening loop produces when
every lookup is in range: r-major, seat-minor, Runde and Platz numbered
from 1. -/
def rawPlan (latin_sq : List (List Nat)) (players : List Nat) : List PlanRow :=
  (List.range players.length).flatMap (fun r =>
    (List.range players.length).map (fun s =>
      PlanRow.mk (r + 1) (s + 1) (planSpieler latin_sq players r s)))

/-- Sample ledger for the aggregator: one player whose corrected scores over
rounds 1-3 are 2, -1, 3. -/
def sampleSeriesLedger : List Row :=
  [Row.mk 1 1 1 1 0 none (some 2), Row.mk 1 2 1 1 0 none (some (-1)),
    Row.mk 1 3 1 1 0 none (some 3)]

/-- Sample ledger in which player 2 appears in round 1 (corrected score 5)
but is missing from round 2. -/
def sampleMissingLedger : List Row :=
  [Row.mk 1 1 1 1 0 none (some 2), Row.mk 1 1 2 2 0 none (some 5),
    Row.mk 1 2 1 2 0 none (some 3)]

/-! ## Theorems -/

/-- Helper: a list of distinct naturals below n with exactly n elements is a
permutation of range n. -/
theorem perm_range_of_nodup_bounded {l : List Nat} {n : Nat} (hnd : l.Nodup)
    (hlt : ∀ x ∈ l, x < n) (hlen : l.length = n) : l.Perm (List.range n) := by
  apply List.perm_of_nodup_nodup_toFinset_eq hnd (List.nodup_range n)
  apply Finset.eq_of_subset_of_card_le
  · intro x hx
    rw [List.mem_toFinset] at hx
    simp only [List.mem_toFinset, List.mem_range]
    exact hlt x hx
  · have h1 : l.toFinset.card = n := by rw [List.toFinset_card_of_nodup hnd, hlen]
    have h2 : (List.range n).toFinset = Finset.range n := by ext x; simp
    rw [h1, h2, Finset.card_range]

/-- Helper: a defaulted lookup with an in-range index is a member. -/
theorem getD_mem_of_lt {α : Type} (l : List α) (i : Nat) (d : α) (h : i < l.length) :
    l.getD i d ∈ l := by
  rw [List.getD_eq_getElem?_getD, List.getElem?_eq_getElem h]
  exact List.getElem_mem h

/-- Helper: defaulted lookup into a map over range n at an in-range index. -/
theorem getD_map_range {α : Type} (f : Nat → α) (n c : Nat) (d : α) (hc : c < n) :
    (((List.range n).map f).getD c d) = f c := by
  rw [List.getD_eq_getElem?_getD, List.getElem?_map, List.getElem?_range hc]
  rfl

/-- Helper: defaulted lookup commutes with map at an in-range index. -/
theorem getD_map_of_lt {α β : Type} (f : α → β) (l : List α) (j : Nat) (d : β)
    (d2 : α) (hj : j < l.length) : (l.map f).getD j d = f (l.getD j d2) := by
  rw [List.getD_eq_getElem?_getD, List.getElem?_map, List.getElem?_eq_getElem hj,
    List.getD_eq_getElem?_getD, List.getElem?_eq_getElem hj]
  rfl

/-- Helper: the cyclic row (i + j) % n, j over range n, is a permutation of
range n. -/
theorem shift_mod_perm_range (n i : Nat) (hn : 0 < n) :
    ((List.range n).map (fun j => (i + j) % n)).Perm (List.range n) := by
  apply perm_range_of_nodup_bounded
  · apply List.Nodup.map_on ?_ (List.nodup_range n)
    intro x hx y hy hxy
    rw [List.mem_range] at hx hy
    have hmx : (i + x) % n = (i + y) % n := hxy
    have hcancel : x % n = y % n :=
      Nat.ModEq.add_left_cancel (Nat.ModEq.refl i) hmx
    rw [Nat.mod_eq_of_lt hx, Nat.mod_eq_of_lt hy] at hcancel
    exact hcancel
  · intro x hx
    obtain ⟨j, _, rfl⟩ := List.mem_map.mp hx
    exact Nat.mod_lt _ hn
  · simp

/-- Helper: relabeling a permutation of range n through a permutation sp of
range n again yields a permutation of range n. -/
theorem map_getD_perm_range {X sp : List Nat} {n : Nat} (hX : X.Perm (List.range n))
    (hsp : sp.Perm (List.range n)) :
    (X.map (fun v => sp.getD v 0)).Perm (List.range n) := by
  have hlen : sp.length = n := by simpa using hsp.length_eq
  have h2 : (List.range n).map (fun v => sp.getD v 0) = sp := by
    apply List.ext_getElem
    · simp [hlen]
    · intro i h1 h2
      simp only [List.getElem_map, List.getElem_range]
      rw [List.getD_eq_getElem?_getD, List.getElem?_eq_getElem (by simpa using h2)]
      rfl
  have h3 : (X.map (fun v => sp.getD v 0)).Perm
      ((List.range n).map (fun v => sp.getD v 0)) := hX.map _
  rw [h2] at h3
  exact h3.trans hsp

/-- Helper: closed form of the generated square when every column index drawn
is below n: cell (i, j) = symbol_perm[(i + col_perm[j]) % n]. -/
theorem generate_closed (n : Nat) (symbol_perm col_perm : List Nat)
    (hcp : ∀ c ∈ col_perm, c < n) :
    generate_random_latin_square n symbol_perm col_perm =
      (List.range n).map (fun i =>
        col_perm.map (fun c => symbol_perm.getD ((i + c) % n) 0)) := by
  rw [generate_random_latin_square, relabelSymbols, cyclicSquare, permuteColumns,
    List.map_map, List.map_map]
  apply List.map_congr_left
  intro i _
  simp only [Function.comp_def, List.map_map]
  apply List.map_congr_left
  intro c hc
  rw [getD_map_range _ n c 0 (hcp c hc)]

/-- Helper: every row of the generated square has length n and is a
permutation of range n. -/
theorem generate_row_spec (n : Nat) (symbol_perm col_perm : List Nat) (hn : 0 < n)
    (hsp : symbol_perm.Perm (List.range n)) (hcp : col_perm.Perm (List.range n)) :
    ∀ row ∈ generate_random_latin_square n symbol_perm col_perm,
      row.length = n ∧ row.Perm (List.range n) := by
  intro row hrow
  have hcplt : ∀ c ∈ col_perm, c < n := fun c hc =>
    List.mem_range.mp (hcp.mem_iff.mp hc)
  rw [generate_closed n symbol_perm col_perm hcplt] at hrow
  obtain ⟨i, _, rfl⟩ := List.mem_map.mp hrow
  constructor
  · simpa using hcp.length_eq
  · have hsplit : col_perm.map (fun c => symbol_perm.getD ((i + c) % n) 0)
        = (col_perm.map (fun c => (i + c) % n)).map
          (fun v => symbol_perm.getD v 0) := by
      rw [List.map_map]
      rfl
    rw [hsplit]
    apply map_getD_perm_range ?_ hsp
    exact (hcp.map _).trans (shift_mod_perm_range n i hn)

/-- Helper: every column of the generated square is a permutation of
range n. -/
theorem generate_col_spec (n : Nat) (symbol_perm col_perm : List Nat) (hn : 0 < n)
    (hsp : symbol_perm.Perm (List.range n)) (hcp : col_perm.Perm (List.range n)) :
    ∀ j < n, (matCol (generate_random_latin_square n symbol_perm col_perm) j).Perm
      (List.range n) := by
  intro j hj
  have hcplt : ∀ c ∈ col_perm, c < n := fun c hc =>
    List.mem_range.mp (hcp.mem_iff.mp hc)
  have hcpl : col_perm.length = n := by simpa using hcp.length_eq
  rw [generate_closed n symbol_perm col_perm hcplt, matCol, List.map_map]
  have hc : col_perm.getD j 0 < n :=
    hcplt _ (getD_mem_of_lt col_perm j 0 (by omega))
  have hrwd : ∀ i : Nat,
      ((col_perm.map (fun c => symbol_perm.getD ((i + c) % n) 0)).getD j 0)
        = symbol_perm.getD ((i + col_perm.getD j 0) % n) 0 := fun i =>
    getD_map_of_lt _ col_perm j 0 0 (by omega)
  simp only [Function.comp_def]
  rw [List.map_congr_left (fun i _ => hrwd i)]
  have hsplit : (List.range n).map
      (fun i => symbol_perm.getD ((i + col_perm.getD j 0) % n) 0)
      = ((List.range n).map (fun i => (i + col_perm.getD j 0) % n)).map
        (fun v => symbol_perm.getD v 0) := by
    rw [List.map_map]
    rfl
  rw [hsplit]
  apply map_getD_perm_range ?_ hsp
  have hcomm : (List.range n).map (fun i => (i + col_perm.getD j 0) % n)
      = (List.range n).map (fun i => (col_perm.getD j 0 + i) % n) :=
    List.map_congr_left (fun i _ => by rw [Nat.add_comm])
  rw [hcomm]
  exact shift_mod_perm_range n (col_perm.getD j 0) hn

/-- C1: for every n ≥ 1 and every outcome of the two shuffles, the generator
returns an n×n matrix in which every row is a permutation of {0..n-1} and
every column is a permutation of {0..n-1}; in particular n = 1 succeeds with
the trivial 1×1 design. -/
theorem generate_random_latin_square_correct (n : Nat)
    (symbol_perm col_perm : List Nat) (hn : 1 ≤ n)
    (hsp : symbol_perm.Perm (List.range n)) (hcp : col_perm.Perm (List.range n)) :
    (generate_random_latin_square n symbol_perm col_perm).length = n ∧
    (∀ row ∈ generate_random_latin_square n symbol_perm col_perm,
      row.length = n ∧ row.Perm (List.range n)) ∧
    (∀ j < n, (matCol (generate_random_latin_square n symbol_perm col_perm) j).Perm
      (List.range n)) := by
  refine ⟨?_, generate_row_spec n _ _ hn hsp hcp, generate_col_spec n _ _ hn hsp hcp⟩
  simp [generate_random_latin_square, permuteColumns, relabelSymbols, cyclicSquare]

/-- Witness for C1 at n = 3 with concrete shuffle outcomes. -/
theorem generate_random_latin_square_correct_witness :
    1 ≤ 3 ∧ ([1, 2, 0] : List Nat).Perm (List.range 3) ∧
    ([2, 0, 1] : List Nat).Perm (List.range 3) ∧
    ((generate_random_latin_square 3 [1, 2, 0] [2, 0, 1]).length = 3 ∧
      (∀ row ∈ generate_random_latin_square 3 [1, 2, 0] [2, 0, 1],
        row.length = 3 ∧ row.Perm (List.range 3)) ∧
      (∀ j < 3, (matCol (generate_random_latin_square 3 [1, 2, 0] [2, 0, 1]) j).Perm
        (List.range 3))) :=
  ⟨by decide, by decide, by decide,
    generate_random_latin_square_correct 3 [1, 2, 0] [2, 0, 1] (by decide)
      (by decide) (by decide)⟩

/-- Helper: binding a successful Except value reduces. -/
theorem ok_bind {α β : Type} (a : α) (f : α → Except PyErr β) :
    (Except.ok a >>= f) = f a := rfl

/-- Helper: Python indexing with an in-range index returns the defaulted
lookup. -/
theorem pyGet_ok {α : Type} (l : List α) (i : Nat) (d : α) (hi : i < l.length) :
    pyGet l i = Except.ok (l.getD i d) := by
  rw [pyGet, List.getElem?_eq_getElem hi, List.getD_eq_getElem?_getD,
    List.getElem?_eq_getElem hi]
  rfl

/-- Helper: a mapM over Except succeeds elementwise. -/
theorem mapM_ok_of_forall {α β : Type} {l : List α} {f : α → Except PyErr β}
    {g : α → β} (h : ∀ a ∈ l, f a = Except.ok (g a)) :
    l.mapM f = Except.ok (l.map g) := by
  induction l with
  | nil => rfl
  | cons a t ih =>
      rw [List.mapM_cons, h a (List.mem_cons_self a t),
        ih (fun b hb => h b (List.mem_cons_of_mem a hb))]
      rfl

/-- Helper: the flattening loop succeeds and produces the closed-form plan
whenever every lookup it performs is in range; no relation between
len(players) and the square's dimension is required beyond that. -/
theorem plan_from_ok (latin_sq : List (List Nat)) (players : List Nat)
    (h : ∀ r < players.length, r < latin_sq.length ∧
      ∀ s < players.length, s < (latin_sq.getD r []).length ∧
        (latin_sq.getD r []).getD s 0 < players.length) :
    plan_from latin_sq players = Except.ok (rawPlan latin_sq players) := by
  rw [plan_from]
  have houter : (List.range players.length).mapM (fun r =>
      (List.range players.length).mapM (fun s => do
        let lrow ← pyGet latin_sq r
        let player_idx ← pyGet lrow s
        let p ← pyGet players player_idx
        pure (PlanRow.mk (r + 1) (s + 1) p)))
      = Except.ok ((List.range players.length).map (fun r =>
        (List.range players.length).map (fun s =>
          PlanRow.mk (r + 1) (s + 1) (planSpieler latin_sq players r s)))) := by
    apply mapM_ok_of_forall
    intro r hr
    rw [List.mem_range] at hr
    obtain ⟨hrlen, hrest⟩ := h r hr
    apply mapM_ok_of_forall
    intro s hs
    rw [List.mem_range] at hs
    obtain ⟨hslen, hval⟩ := hrest s hs
    rw [pyGet_ok latin_sq r [] hrlen, ok_bind]
    rw [pyGet_ok (latin_sq.getD r []) s 0 hslen, ok_bind]
    rw [pyGet_ok players ((latin_sq.getD r []).getD s 0) 0 hval, ok_bind]
    rfl
  rw [houter, ok_bind]
  rfl

/-- Helper: the closed-form plan has exactly n² rows. -/
theorem rawPlan_length (latin_sq : List (List Nat)) (players : List Nat) :
    (rawPlan latin_sq players).length = players.length * players.length := by
  rw [rawPlan, List.flatMap_def, List.length_flatten, List.map_map]
  have hconst : ((List.range players.length).map
      (List.length ∘ fun r => (List.range players.length).map (fun s =>
        PlanRow.mk (r + 1) (s + 1) (planSpieler latin_sq players r s)))).sum
      = ((List.range players.length).map (fun _ => players.length)).sum := by
    apply congrArg
    apply List.map_congr_left
    intro r _
    simp [Function.comp_def]
  rw [hconst]
  have hrepl : (List.range players.length).map (fun _ => players.length)
      = List.replicate players.length players.length := by
    rw [show (fun _ : Nat => players.length)
        = Function.const Nat players.length from rfl,
      List.map_const, List.length_range]
  rw [hrepl, List.sum_replicate, smul_eq_mul]

/-- Helper: flatMap over range n of blockwise-empty lists is empty. -/
theorem flatMap_range_nil {α : Type} (n : Nat) (g : Nat → List α)
    (hg : ∀ m < n, g m = []) : (List.range n).flatMap g = [] := by
  induction n with
  | zero => rfl
  | succ n ih =>
      rw [List.range_succ, List.flatMap_append, ih (fun m hm => hg m (by omega)),
        List.flatMap_singleton, hg n (by omega)]
      rfl

/-- Helper: flatMap over range n where only index k contributes. -/
theorem flatMap_range_single {α : Type} (g : Nat → List α) :
    ∀ {n k : Nat}, k < n → (∀ m < n, m ≠ k → g m = []) →
      (List.range n).flatMap g = g k := by
  intro n
  induction n with
  | zero => intro k hk _; omega
  | succ n ih =>
      intro k hk hg
      rw [List.range_succ, List.flatMap_append, List.flatMap_singleton]
      by_cases hkn : k = n
      · subst hkn
        rw [flatMap_range_nil k g (fun m hm => hg m (by omega) (by omega))]
        rfl
      · rw [hg n (by omega) (fun hc => hkn hc.symm),
          ih (by omega) (fun m hm hne => hg m (by omega) hne)]
        simp

/-- Helper: filtering range n for equality with k < n leaves exactly [k]. -/
theorem filter_range_eq_single :
    ∀ {n k : Nat}, k < n →
      (List.range n).filter (fun x => decide (x = k)) = [k] := by
  intro n
  induction n with
  | zero => intro k hk; omega
  | succ n ih =>
      intro k hk
      rw [List.range_succ, List.filter_append]
      by_cases hkn : k = n
      · subst hkn
        have h1 : (List.range k).filter (fun x => decide (x = k)) = [] :=
          List.filter_eq_nil_iff.mpr (fun a ha => by
            rw [List.mem_range] at ha
            simp only [decide_eq_true_eq]
            omega)
        rw [h1]
        simp
      · rw [ih (by omega)]
        have h2 : ([n] : List Nat).filter (fun x => decide (x = k)) = [] :=
          List.filter_eq_nil_iff.mpr (fun a ha => by
            rw [List.mem_singleton] at ha
            simp only [decide_eq_true_eq]
            omega)
        rw [h2, List.append_nil]

/-- Helper: flattening a map to singleton lists is a map. -/
theorem flatten_map_singleton {α β : Type} (l : List β) (g : β → α) :
    (l.map (fun x => [g x])).flatten = l.map g := by
  induction l with
  | nil => rfl
  | cons a t ih => simp [ih]

/-- Helper: the closed-form plan is sorted by (Runde, Platz). -/
theorem rawPlan_sorted (latin_sq : List (List Nat)) (players : List Nat) :
    List.Pairwise (fun a b => planLE a b = true) (rawPlan latin_sq players) := by
  rw [rawPlan, List.flatMap_def, List.pairwise_flatten]
  constructor
  · intro l hl
    obtain ⟨r, _, rfl⟩ := List.mem_map.mp hl
    rw [List.pairwise_map]
    apply List.Pairwise.imp ?_ (List.pairwise_lt_range players.length)
    intro a b hab
    simp [planLE]
    omega
  · rw [List.pairwise_map]
    apply List.Pairwise.imp ?_ (List.pairwise_lt_range players.length)
    intro a b hab x hx y hy
    obtain ⟨s1, _, rfl⟩ := List.mem_map.mp hx
    obtain ⟨s2, _, rfl⟩ := List.mem_map.mp hy
    simp [planLE]
    omega

/-- Helper: every row of the closed-form plan has Runde and Platz in 1..n. -/
theorem rawPlan_mem_bounds (latin_sq : List (List Nat)) (players : List Nat) :
    ∀ row ∈ rawPlan latin_sq players,
      1 ≤ row.runde ∧ row.runde ≤ players.length ∧
      1 ≤ row.platz ∧ row.platz ≤ players.length := by
  intro row hrow
  rw [rawPlan] at hrow
  obtain ⟨r0, hr0, hx⟩ := List.mem_flatMap.mp hrow
  obtain ⟨s0, hs0, rfl⟩ := List.mem_map.mp hx
  rw [List.mem_range] at hr0
  rw [List.mem_range] at hs0
  refine ⟨?_, ?_, ?_, ?_⟩ <;> (simp only [PlanRow.mk.injEq]; omega)

/-- Helper: grouping the closed-form plan by a round r in 1..n yields the
block of round r, one row per seat. -/
theorem rawPlan_filter_runde (latin_sq : List (List Nat)) (players : List Nat)
    {r : Nat} (h1 : 1 ≤ r) (h2 : r ≤ players.length) :
    (rawPlan latin_sq players).filter (fun row => decide (row.runde = r))
      = (List.range players.length).map (fun s =>
          PlanRow.mk r (s + 1) (planSpieler latin_sq players (r - 1) s)) := by
  rw [rawPlan, List.filter_flatMap]
  have hmain : ((List.range players.length).flatMap (fun r0 =>
      ((List.range players.length).map (fun s =>
        PlanRow.mk (r0 + 1) (s + 1) (planSpieler latin_sq players r0 s))).filter
      (fun row => decide (row.runde = r))))
      = ((List.range players.length).map (fun s =>
        PlanRow.mk (r - 1 + 1) (s + 1) (planSpieler latin_sq players (r - 1) s))).filter
      (fun row => decide (row.runde = r)) :=
    flatMap_range_single _ (show r - 1 < players.length by omega) ?hg
  case hg =>
    intro m hm hne
    apply List.filter_eq_nil_iff.mpr
    intro a ha
    obtain ⟨s0, _, rfl⟩ := List.mem_map.mp ha
    simp only [decide_eq_true_eq]
    show ¬ (m + 1 = r)
    omega
  rw [hmain, List.filter_eq_self.mpr ?keep]
  case keep =>
    intro a ha
    obtain ⟨s0, _, rfl⟩ := List.mem_map.mp ha
    simp only [decide_eq_true_eq]
    show r - 1 + 1 = r
    omega
  have hr1 : r - 1 + 1 = r := by omega
  rw [hr1]

/-- Helper: grouping the closed-form plan by a seat s in 1..n yields one row
per round. -/
theorem rawPlan_filter_platz (latin_sq : List (List Nat)) (players : List Nat)
    {s : Nat} (h1 : 1 ≤ s) (h2 : s ≤ players.length) :
    (rawPlan latin_sq players).filter (fun row => decide (row.platz = s))
      = (List.range players.length).map (fun r0 =>
          PlanRow.mk (r0 + 1) s (planSpieler latin_sq players r0 (s - 1))) := by
  rw [rawPlan, List.filter_flatMap]
  have hblock : ∀ r0 : Nat, ((List.range players.length).map (fun s0 =>
      PlanRow.mk (r0 + 1) (s0 + 1) (planSpieler latin_sq players r0 s0))).filter
      (fun row => decide (row.platz = s))
      = [PlanRow.mk (r0 + 1) s (planSpieler latin_sq players r0 (s - 1))] := by
    intro r0
    rw [List.filter_map]
    have hpred : ((fun row => decide (row.platz = s)) ∘ (fun s0 =>
        PlanRow.mk (r0 + 1) (s0 + 1) (planSpieler latin_sq players r0 s0)))
        = fun s0 => decide (s0 = s - 1) := by
      funext s0
      simp only [Function.comp_apply]
      rw [decide_eq_decide]
      show s0 + 1 = s ↔ s0 = s - 1
      omega
    rw [hpred, filter_range_eq_single (show s - 1 < players.length by omega)]
    have hs1 : s - 1 + 1 = s := by omega
    simp [hs1]
  have hcongr : (List.range players.length).flatMap (fun r0 =>
      ((List.range players.length).map (fun s0 =>
        PlanRow.mk (r0 + 1) (s0 + 1) (planSpieler latin_sq players r0 s0))).filter
      (fun row => decide (row.platz = s)))
      = (List.range players.length).flatMap (fun r0 =>
        [PlanRow.mk (r0 + 1) s (planSpieler latin_sq players r0 (s - 1))]) := by
    rw [List.flatMap_def, List.flatMap_def]
    apply congrArg
    exact List.map_congr_left (fun r0 _ => hblock r0)
  rw [hcongr, List.flatMap_def, flatten_map_singleton]

/-- Helper: every lookup the flattening loop performs on a generated square is
in range when the shuffles are permutations of range n. -/
theorem generate_valid_for_plan (players symbol_perm col_perm : List Nat)
    (hsp : symbol_perm.Perm (List.range players.length))
    (hcp : col_perm.Perm (List.range players.length)) :
    ∀ r < players.length,
      r < (generate_random_latin_square players.length symbol_perm col_perm).length ∧
      ∀ s < players.length,
        s < ((generate_random_latin_square players.length symbol_perm
          col_perm).getD r []).length ∧
        ((generate_random_latin_square players.length symbol_perm
          col_perm).getD r []).getD s 0 < players.length := by
  intro r hr
  have hlen : (generate_random_latin_square players.length symbol_perm
      col_perm).length = players.length := by
    simp [generate_random_latin_square, permuteColumns, relabelSymbols, cyclicSquare]
  refine ⟨by omega, ?_⟩
  intro s hs
  have hrowmem : (generate_random_latin_square players.length symbol_perm
      col_perm).getD r [] ∈ generate_random_latin_square players.length symbol_perm
      col_perm :=
    getD_mem_of_lt _ r [] (by omega)
  obtain ⟨hrl, hrperm⟩ := generate_row_spec players.length symbol_perm col_perm
    (by omega) hsp hcp _ hrowmem
  refine ⟨by omega, ?_⟩
  have hmem : ((generate_random_latin_square players.length symbol_perm
      col_perm).getD r []).getD s 0 ∈ (generate_random_latin_square players.length
      symbol_perm col_perm).getD r [] :=
    getD_mem_of_lt _ s 0 (by omega)
  have hlt := hrperm.mem_iff.mp hmem
  rw [List.mem_range] at hlt
  exact hlt

/-- C5: for any player list and any shuffle outcomes, create_seating_plan
succeeds with a plan of exactly n² rows, Runde and Platz numbered from 1,
sorted by (Runde, Platz); grouping by any round r in 1..n yields exactly one
row per Platz value 1..n (in order), and grouping by any seat s in 1..n
yields exactly one row per Runde value 1..n (in order). -/
theorem create_seating_plan_correct (players symbol_perm col_perm : List Nat)
    (hsp : symbol_perm.Perm (List.range players.length))
    (hcp : col_perm.Perm (List.range players.length)) :
    ∃ plan, create_seating_plan players symbol_perm col_perm = Except.ok plan ∧
      plan.length = players.length * players.length ∧
      List.Pairwise (fun a b => planLE a b = true) plan ∧
      (∀ row ∈ plan, 1 ≤ row.runde ∧ row.runde ≤ players.length ∧
        1 ≤ row.platz ∧ row.platz ≤ players.length) ∧
      (∀ r, 1 ≤ r → r ≤ players.length →
        (plan.filter (fun row => decide (row.runde = r))).map PlanRow.platz
          = (List.range players.length).map (fun s => s + 1)) ∧
      (∀ s, 1 ≤ s → s ≤ players.length →
        (plan.filter (fun row => decide (row.platz = s))).map PlanRow.runde
          = (List.range players.length).map (fun r => r + 1)) := by
  have hvalid := generate_valid_for_plan players symbol_perm col_perm hsp hcp
  refine ⟨rawPlan (generate_random_latin_square players.length symbol_perm col_perm)
    players, ?_, rawPlan_length _ _, rawPlan_sorted _ _, rawPlan_mem_bounds _ _,
    ?_, ?_⟩
  · simp only [create_seating_plan]
    rw [plan_from_ok _ _ hvalid, ok_bind,
      List.mergeSort_of_sorted (rawPlan_sorted _ _)]
    rfl
  · intro r hr1 hr2
    rw [rawPlan_filter_runde _ _ hr1 hr2, List.map_map]
    apply List.map_congr_left
    intro s0 _
    rfl
  · intro s hs1 hs2
    rw [rawPlan_filter_platz _ _ hs1 hs2, List.map_map]
    apply List.map_congr_left
    intro r0 _
    rfl

/-- Witness for C5 at three players and concrete shuffle outcomes. -/
theorem create_seating_plan_correct_witness :
    ([1, 2, 0] : List Nat).Perm (List.range ([10, 20, 30] : List Nat).length) ∧
    ([2, 0, 1] : List Nat).Perm (List.range ([10, 20, 30] : List Nat).length) ∧
    (∃ plan, create_seating_plan [10, 20, 30] [1, 2, 0] [2, 0, 1] = Except.ok plan ∧
      plan.length = ([10, 20, 30] : List Nat).length * ([10, 20, 30] : List Nat).length ∧
      List.Pairwise (fun a b => planLE a b = true) plan ∧
      (∀ row ∈ plan, 1 ≤ row.runde ∧ row.runde ≤ ([10, 20, 30] : List Nat).length ∧
        1 ≤ row.platz ∧ row.platz ≤ ([10, 20, 30] : List Nat).length) ∧
      (∀ r, 1 ≤ r → r ≤ ([10, 20, 30] : List Nat).length →
        (plan.filter (fun row => decide (row.runde = r))).map PlanRow.platz
          = (List.range ([10, 20, 30] : List Nat).length).map (fun s => s + 1)) ∧
      (∀ s, 1 ≤ s → s ≤ ([10, 20, 30] : List Nat).length →
        (plan.filter (fun row => decide (row.platz = s))).map PlanRow.runde
          = (List.range ([10, 20, 30] : List Nat).length).map (fun r => r + 1))) :=
  ⟨by decide, by decide,
    create_seating_plan_correct [10, 20, 30] [1, 2, 0] [2, 0, 1] (by decide)
      (by decide)⟩

/-- C6 counterexample: a Design of dimension 2 with a player list of length 1
is flattened to a normal one-row plan — no InvalidInput error is raised on
the length mismatch. -/
theorem plan_mismatch_no_invalid_input_cex :
    ([[0, 1], [1, 0]] : List (List Nat)).length ≠ ([10] : List Nat).length ∧
    plan_from [[0, 1], [1, 0]] [10] = Except.ok [PlanRow.mk 1 1 10] :=
  ⟨by decide, rfl⟩

/-- C6 amended: the builder performs no validation of the player-list length
against the Design's dimension. It derives n from len(players) alone; given
any square whose accessed prefix is index-valid for that n — mismatched
dimension or not — the flattening succeeds with an n² row plan, and in the
program create_seating_plan always generates the square from n = len(players)
itself, so a mismatch can never arise and no InvalidInput error exists. -/
theorem plan_from_no_length_validation (latin_sq : List (List Nat))
    (players : List Nat)
    (h : ∀ r < players.length, r < latin_sq.length ∧
      ∀ s < players.length, s < (latin_sq.getD r []).length ∧
        (latin_sq.getD r []).getD s 0 < players.length) :
    ∃ plan, plan_from latin_sq players = Except.ok plan ∧
      plan.length = players.length * players.length := by
  refine ⟨rawPlan latin_sq players, plan_from_ok latin_sq players h, ?_⟩
  rw [rawPlan, List.flatMap, List.length_flatten, List.map_map]
  have hconst : ((List.range players.length).map
      (List.length ∘ fun r => (List.range players.length).map (fun s =>
        PlanRow.mk (r + 1) (s + 1) (planSpieler latin_sq players r s)))).sum
      = ((List.range players.length).map
        (fun _ => players.length)).sum := by
    apply congrArg
    apply List.map_congr_left
    intro r _
    simp [Function.comp_def]
  rw [hconst]
  have : (List.range players.length).map (fun _ => players.length)
      = List.replicate players.length players.length := by
    rw [show (fun _ : Nat => players.length) = Function.const Nat players.length from rfl,
      List.map_const, List.length_range]
  rw [this, List.sum_replicate, smul_eq_mul]

/-- Witness for the amended C6 at the mismatched input: a 2×2 square with a
single-player list; the flattening succeeds with a 1-row plan. -/
theorem plan_from_no_length_validation_witness :
    ([[0, 1], [1, 0]] : List (List Nat)).length ≠ ([10] : List Nat).length ∧
    (∃ plan, plan_from [[0, 1], [1, 0]] [10] = Except.ok plan ∧
      plan.length = ([10] : List Nat).length * ([10] : List Nat).length) :=
  ⟨by decide, plan_from_no_length_validation [[0, 1], [1, 0]] [10] (by decide)⟩

/-- C7: every score input that float() cannot parse is recorded as zero for
that player's observation of the round rather than aborting it, and every
parseable input is recorded as its numeric value; either way the collected
punkte_dict holds one entry per seated player. -/
theorem malformed_score_substitutes_zero
    (parseFloat : String → Option Rat) (eingaben : Nat → String)
    (round_plan : List PlanRow) (row : PlanRow) (hrow : row ∈ round_plan) :
    (parseFloat (eingaben row.spieler) = none →
      readPunkte parseFloat (eingaben row.spieler) = 0) ∧
    (∀ v, parseFloat (eingaben row.spieler) = some v →
      readPunkte parseFloat (eingaben row.spieler) = v) ∧
    (row.spieler, readPunkte parseFloat (eingaben row.spieler)) ∈
      collectScores parseFloat eingaben round_plan := by
  refine ⟨fun hnone => ?_, fun v hv => ?_, ?_⟩
  · simp [readPunkte, hnone]
  · simp [readPunkte, hv]
  · exact List.mem_map_of_mem _ hrow

/-- Witness for C7 at a concrete failing parse and a concrete succeeding
parse over a two-player round plan. -/
theorem malformed_score_substitutes_zero_witness :
    (((fun s : String => if s.length = 0 then none else some (3:Rat))
        ((fun p : Nat => if p = 1 then "x" else "") 2) = none →
      readPunkte (fun s => if s.length = 0 then none else some (3:Rat))
        ((fun p : Nat => if p = 1 then "x" else "") 2) = 0) ∧
    (∀ v, (fun s : String => if s.length = 0 then none else some (3:Rat))
        ((fun p : Nat => if p = 1 then "x" else "") 2) = some v →
      readPunkte (fun s => if s.length = 0 then none else some (3:Rat))
        ((fun p : Nat => if p = 1 then "x" else "") 2) = v) ∧
    ((2:Nat), readPunkte (fun s => if s.length = 0 then none else some (3:Rat))
        ((fun p : Nat => if p = 1 then "x" else "") 2)) ∈
      collectScores (fun s => if s.length = 0 then none else some (3:Rat))
        (fun p => if p = 1 then "x" else "")
        [PlanRow.mk 1 1 1, PlanRow.mk 1 2 2]) :=
  by
  exact malformed_score_substitutes_zero
    (fun s : String => if s.length = 0 then none else some (3:Rat))
    (fun p : Nat => if p = 1 then "x" else "")
    [PlanRow.mk 1 1 1, PlanRow.mk 1 2 2] (PlanRow.mk 1 2 2) (by decide)

/-- C2: with exactly one distinct global round in the ledger, the correction
pass takes the naive branch of line 111: every row's Punkte_korr becomes its
Punkte minus the mean Punkte over the rows sharing its Platz, and no error is
possible. -/
theorem single_round_naive_centering
    (fit : List Row → Option (List Rat)) (df_all : List Row)
    (h : nuniqueRunde df_all = 1) :
    correctionStep fit df_all =
      Except.ok (df_all.map (fun row =>
        { row with korr := some (row.punkte - seatMean df_all row.platz) })) := by
  rw [correctionStep, if_neg (by omega)]
  rfl

/-- Witness for C2: the one-round ledger with seats 1, 2, 3 and raw scores
10, 20, 30 (one observation per seat) gets corrected score 0 on every row,
whatever the (unused) fit routine would do. -/
theorem single_round_naive_centering_witness :
    nuniqueRunde
      [Row.mk 1 1 1 1 10 none none, Row.mk 1 1 2 2 20 none none,
        Row.mk 1 1 3 3 30 none none] = 1 ∧
    correctionStep (fun _ => none)
      [Row.mk 1 1 1 1 10 none none, Row.mk 1 1 2 2 20 none none,
        Row.mk 1 1 3 3 30 none none] =
      Except.ok [Row.mk 1 1 1 1 10 none (some 0), Row.mk 1 1 2 2 20 none (some 0),
        Row.mk 1 1 3 3 30 none (some 0)] := by
  refine ⟨by decide, ?_⟩
  rw [single_round_naive_centering (fun _ => none) _ (by decide)]
  norm_num [seatMean]

/-- C4 counterexample: on a ledger with two distinct rounds whose model fit
fails, the correction pass propagates the failure as an error; it does not
fall back to the naive per-seat centering of the single-round policy. -/
theorem fitfail_aborts_instead_of_naive_cex :
    correctionStep (fun _ => none)
      [Row.mk 1 1 1 1 10 none none, Row.mk 1 2 1 1 20 none none] =
      Except.error FitError.fitFailure ∧
    Except.error FitError.fitFailure ≠
      Except.ok (naiveCorrect
        [Row.mk 1 1 1 1 10 none none, Row.mk 1 2 1 1 20 none none]) :=
  ⟨rfl, fun hc => Except.noConfusion hc⟩

/-- C4 amended: a fit failure on a multi-round ledger is fatal to the
correction pass — the error propagates (line 105 has no exception handler)
and the naive centering branch is reached only when fewer than two distinct
rounds exist, never on fit failure. -/
theorem fitfail_fatal_no_fallback
    (fit : List Row → Option (List Rat)) (df_all : List Row)
    (h2 : 2 ≤ nuniqueRunde df_all) (hf : fit df_all = none) :
    correctionStep fit df_all = Except.error FitError.fitFailure := by
  rw [correctionStep, if_pos h2, hf]

/-- Witness for the amended C4 on a concrete two-round ledger and a failing
fit. -/
theorem fitfail_fatal_no_fallback_witness :
    2 ≤ nuniqueRunde [Row.mk 1 1 1 1 10 none none, Row.mk 1 2 1 1 20 none none] ∧
    correctionStep (fun _ => none)
      [Row.mk 1 1 1 1 10 none none, Row.mk 1 2 1 1 20 none none] =
      Except.error FitError.fitFailure :=
  ⟨by decide, fitfail_fatal_no_fallback (fun _ => none) _ (by decide) rfl⟩

/-- Helper: mapping a first-component projection over a zip recovers the first
list when the second is long enough. -/
theorem map_fst_field_zip {β : Type} (g : Row → β) (l : List Row) (fv : List Rat)
    (h : fv.length = l.length) :
    ((l.zip fv).map (fun rf => g rf.1)) = l.map g := by
  have h1 : (l.zip fv).map (fun rf => g rf.1) = ((l.zip fv).map Prod.fst).map g := by
    rw [List.map_map]
    rfl
  rw [h1, List.map_fst_zip _ _ (by omega)]

/-- C10: a correction pass only writes the Punkte_vorhergesagt and Punkte_korr
columns — Block, Runde, Spieler, Platz and Punkte of every existing row are
left unchanged — and the per-round append step of lines 92-100 extends the
ledger by exactly one row per plan row of the round (one per seated player),
each new row carrying Block = block_count and the global round number
r + (block_count - 1) * n. -/
theorem correction_frame_and_append_shape
    (fit : List Row → Option (List Rat)) (df_all out : List Row)
    (hfit : ∀ fv, fit df_all = some fv → fv.length = df_all.length)
    (hok : correctionStep fit df_all = Except.ok out)
    (round_plan : List PlanRow) (block_count n r : Nat) (punkte_dict : Nat → Rat) :
    (out.map Row.block = df_all.map Row.block ∧
      out.map Row.runde = df_all.map Row.runde ∧
      out.map Row.spieler = df_all.map Row.spieler ∧
      out.map Row.platz = df_all.map Row.platz ∧
      out.map Row.punkte = df_all.map Row.punkte) ∧
    ((appendRound df_all round_plan block_count n r punkte_dict).take df_all.length
        = df_all ∧
      (appendRound df_all round_plan block_count n r punkte_dict).length
        = df_all.length + round_plan.length ∧
      ((appendRound df_all round_plan block_count n r punkte_dict).drop
        df_all.length).map Row.spieler = round_plan.map PlanRow.spieler ∧
      ∀ row2 ∈ (appendRound df_all round_plan block_count n r punkte_dict).drop
        df_all.length, row2.runde = r + (block_count - 1) * n ∧
        row2.block = block_count) := by
  constructor
  · rw [correctionStep] at hok
    by_cases hn : 2 ≤ nuniqueRunde df_all
    · rw [if_pos hn] at hok
      cases hfv : fit df_all with
      | none =>
          rw [hfv] at hok
          exact absurd hok (fun hc => Except.noConfusion hc)
      | some fv =>
          rw [hfv] at hok
          injection hok with hout
          have hlen := hfit fv hfv
          rw [← hout]
          refine ⟨?_, ?_, ?_, ?_, ?_⟩ <;>
            · rw [List.map_map]
              simp only [Function.comp_def]
              exact map_fst_field_zip _ _ _ hlen
    · rw [if_neg hn] at hok
      injection hok with hout
      rw [← hout, naiveCorrect]
      refine ⟨?_, ?_, ?_, ?_, ?_⟩ <;> rw [List.map_map] <;> rfl
  · rw [appendRound]
    refine ⟨List.take_left _ _, by simp, ?_, ?_⟩
    · rw [List.drop_left, List.map_map]
      rfl
    · intro row2 hrow2
      rw [List.drop_left] at hrow2
      obtain ⟨prow, _, hpr⟩ := List.mem_map.mp hrow2
      rw [← hpr]
      exact ⟨rfl, rfl⟩

/-- Witness for C10 on a concrete two-round ledger with a succeeding fit of
matching length, and a concrete one-round plan appended as block 2. -/
theorem correction_frame_and_append_shape_witness :
    ([Row.mk 1 1 1 1 10 (some 4) (some 6), Row.mk 1 2 1 2 20 (some 6) (some 14)].map
        Row.block =
        [Row.mk 1 1 1 1 10 none none, Row.mk 1 2 1 2 20 none none].map Row.block ∧
      [Row.mk 1 1 1 1 10 (some 4) (some 6), Row.mk 1 2 1 2 20 (some 6) (some 14)].map
        Row.runde =
        [Row.mk 1 1 1 1 10 none none, Row.mk 1 2 1 2 20 none none].map Row.runde ∧
      [Row.mk 1 1 1 1 10 (some 4) (some 6), Row.mk 1 2 1 2 20 (some 6) (some 14)].map
        Row.spieler =
        [Row.mk 1 1 1 1 10 none none, Row.mk 1 2 1 2 20 none none].map Row.spieler ∧
      [Row.mk 1 1 1 1 10 (some 4) (some 6), Row.mk 1 2 1 2 20 (some 6) (some 14)].map
        Row.platz =
        [Row.mk 1 1 1 1 10 none none, Row.mk 1 2 1 2 20 none none].map Row.platz ∧
      [Row.mk 1 1 1 1 10 (some 4) (some 6), Row.mk 1 2 1 2 20 (some 6) (some 14)].map
        Row.punkte =
        [Row.mk 1 1 1 1 10 none none, Row.mk 1 2 1 2 20 none none].map Row.punkte) ∧
    ((appendRound [Row.mk 1 1 1 1 10 none none, Row.mk 1 2 1 2 20 none none]
        [PlanRow.mk 1 1 1, PlanRow.mk 1 2 2] 2 2 1 (fun _ => 7)).take 2 =
        [Row.mk 1 1 1 1 10 none none, Row.mk 1 2 1 2 20 none none] ∧
      (appendRound [Row.mk 1 1 1 1 10 none none, Row.mk 1 2 1 2 20 none none]
        [PlanRow.mk 1 1 1, PlanRow.mk 1 2 2] 2 2 1 (fun _ => 7)).length = 2 + 2 ∧
      ((appendRound [Row.mk 1 1 1 1 10 none none, Row.mk 1 2 1 2 20 none none]
        [PlanRow.mk 1 1 1, PlanRow.mk 1 2 2] 2 2 1 (fun _ => 7)).drop 2).map
        Row.spieler = [PlanRow.mk 1 1 1, PlanRow.mk 1 2 2].map PlanRow.spieler ∧
      ∀ row2 ∈ (appendRound [Row.mk 1 1 1 1 10 none none, Row.mk 1 2 1 2 20 none none]
        [PlanRow.mk 1 1 1, PlanRow.mk 1 2 2] 2 2 1 (fun _ => 7)).drop 2,
        row2.runde = 1 + (2 - 1) * 2 ∧ row2.block = 2) := by
  exact correction_frame_and_append_shape (fun _ => some [(4:Rat), 6])
    [Row.mk 1 1 1 1 10 none none, Row.mk 1 2 1 2 20 none none]
    [Row.mk 1 1 1 1 10 (some 4) (some 6), Row.mk 1 2 1 2 20 (some 6) (some 14)]
    (by intro fv h; injection h with h2; rw [← h2]; rfl)
    (by norm_num [correctionStep, nuniqueRunde, List.dedup])
    [PlanRow.mk 1 1 1, PlanRow.mk 1 2 2] 2 2 1 (fun _ => 7)




/-- Helper: keyLE is transitive. -/
theorem keyLE_trans (a b c : Nat × Nat) (h1 : keyLE a b = true)
    (h2 : keyLE b c = true) : keyLE a c = true := by
  simp only [keyLE, decide_eq_true_eq] at h1 h2 ⊢
  omega

/-- Helper: keyLE is total. -/
theorem keyLE_total (a b : Nat × Nat) : (keyLE a b || keyLE b a) = true := by
  simp only [keyLE, Bool.or_eq_true, decide_eq_true_eq]
  omega

/-- Helper: the sorted group keys are distinct. -/
theorem aggKeys_nodup (df_all : List Row) : (aggKeys df_all).Nodup :=
  (List.nodup_dedup _).perm (List.mergeSort_perm _ keyLE).symm

/-- Helper: the group keys are sorted by keyLE. -/
theorem aggKeys_sorted (df_all : List Row) :
    List.Pairwise (fun a b => keyLE a b = true) (aggKeys df_all) :=
  List.sorted_mergeSort keyLE_trans keyLE_total _

/-- Helper: the group keys are strictly increasing lexicographically. -/
theorem aggKeys_strict (df_all : List Row) :
    List.Pairwise (fun a b : Nat × Nat =>
      a.1 < b.1 ∨ (a.1 = b.1 ∧ a.2 < b.2)) (aggKeys df_all) := by
  have h := (aggKeys_sorted df_all).and (aggKeys_nodup df_all)
  apply h.imp
  intro a b hab
  obtain ⟨h1, h2⟩ := hab
  simp only [keyLE, decide_eq_true_eq] at h1
  have hne : a.1 ≠ b.1 ∨ a.2 ≠ b.2 := by
    by_contra hc
    push_neg at hc
    exact h2 (Prod.ext hc.1 hc.2)
  omega

/-- Helper: a key occurs among the group keys iff it occurs in the ledger. -/
theorem mem_aggKeys {df_all : List Row} {k : Nat × Nat} :
    k ∈ aggKeys df_all ↔ k ∈ df_all.map aggKey := by
  rw [aggKeys, (List.mergeSort_perm _ keyLE).mem_iff, List.mem_dedup]

/-- Helper: df_agg_cum has one entry per group key. -/
theorem df_agg_cum_length (df_all : List Row) :
    (df_agg_cum df_all).length = (aggKeys df_all).length := by
  simp [df_agg_cum, df_agg]

/-- Helper: in a strictly sorted key list, the prefix up to position i
filtered to the Spieler of key i equals the whole list filtered to that
Spieler and to Runde values up to key i's Runde. -/
theorem take_filter_eq_filter_le {ks : List (Nat × Nat)}
    (hs : List.Pairwise (fun a b : Nat × Nat =>
      a.1 < b.1 ∨ (a.1 = b.1 ∧ a.2 < b.2)) ks)
    {i : Nat} (hi : i < ks.length) :
    (ks.take (i + 1)).filter (fun k => decide (k.2 = ks[i].2))
      = ks.filter (fun k => decide (k.2 = ks[i].2 ∧ k.1 ≤ ks[i].1)) := by
  have hpw := List.pairwise_iff_getElem.mp hs
  have hsplit : ks.filter (fun k => decide (k.2 = ks[i].2 ∧ k.1 ≤ ks[i].1))
      = (ks.take (i + 1)).filter (fun k => decide (k.2 = ks[i].2 ∧ k.1 ≤ ks[i].1))
        ++ (ks.drop (i + 1)).filter (fun k => decide (k.2 = ks[i].2 ∧ k.1 ≤ ks[i].1)) := by
    rw [← List.filter_append, List.take_append_drop]
  have h1 : (ks.take (i + 1)).filter (fun k => decide (k.2 = ks[i].2 ∧ k.1 ≤ ks[i].1))
      = (ks.take (i + 1)).filter (fun k => decide (k.2 = ks[i].2)) := by
    apply List.filter_congr
    intro x hx
    obtain ⟨j, hj, hxx⟩ := List.mem_iff_getElem.mp hx
    have hjlen : j < ks.length := by
      rw [List.length_take] at hj
      omega
    have hji : j ≤ i := by
      rw [List.length_take] at hj
      omega
    rw [List.getElem_take] at hxx
    subst hxx
    rw [decide_eq_decide]
    constructor
    · intro hand
      exact hand.1
    · intro hsnd
      refine ⟨hsnd, ?_⟩
      by_cases hji2 : j = i
      · subst hji2
        exact Nat.le_refl _
      · have hrel := hpw j i hjlen hi (by omega)
        omega
  have h2 : (ks.drop (i + 1)).filter
      (fun k => decide (k.2 = ks[i].2 ∧ k.1 ≤ ks[i].1)) = [] := by
    apply List.filter_eq_nil_iff.mpr
    intro x hx
    obtain ⟨j, hj, hxx⟩ := List.mem_iff_getElem.mp hx
    have hjlen : i + 1 + j < ks.length := by
      rw [List.length_drop] at hj
      omega
    rw [List.getElem_drop] at hxx
    subst hxx
    have hrel := hpw i (i + 1 + j) hi hjlen (by omega)
    simp only [decide_eq_true_eq]
    omega
  rw [hsplit, h1, h2, List.append_nil]

/-- Helper: the kval sum over a filter by a disjunction of disjoint
predicates splits. -/
theorem sum_filter_or (l : List Row) (p q : Row → Bool)
    (hdis : ∀ x ∈ l, ¬(p x = true ∧ q x = true)) :
    ((l.filter (fun x => p x || q x)).map kval).sum
      = ((l.filter p).map kval).sum + ((l.filter q).map kval).sum := by
  induction l with
  | nil => simp
  | cons a t ih =>
      have hdt : ∀ x ∈ t, ¬(p x = true ∧ q x = true) := fun x hx =>
        hdis x (List.mem_cons_of_mem a hx)
      cases hp : p a with
      | true =>
          cases hq : q a with
          | true => exact absurd ⟨hp, hq⟩ (hdis a (List.mem_cons_self a t))
          | false =>
              simp [List.filter_cons, hp, hq, ih hdt]
              ring
      | false =>
          cases hq : q a with
          | true =>
              simp [List.filter_cons, hp, hq, ih hdt]
              ring
          | false =>
              simp [List.filter_cons, hp, hq, ih hdt]

/-- Helper: summing the per-key group sums over distinct keys equals the sum
over the rows whose key lies in the key set. -/
theorem sum_over_keys (l : List Row) :
    ∀ K : List (Nat × Nat), K.Nodup →
      (K.map (fun k => sumKorrAt l k.1 k.2)).sum
        = ((l.filter (fun row => decide (aggKey row ∈ K))).map kval).sum := by
  intro K
  induction K with
  | nil =>
      intro _
      have hnil : l.filter (fun row =>
          decide (aggKey row ∈ ([] : List (Nat × Nat)))) = [] :=
        List.filter_eq_nil_iff.mpr (fun a _ => by simp)
      simp [hnil]
  | cons k K ih =>
      intro hnd
      obtain ⟨hknotin, hndK⟩ := List.nodup_cons.mp hnd
      rw [List.map_cons, List.sum_cons, ih hndK]
      have hsum : sumKorrAt l k.1 k.2
          = ((l.filter (fun row => decide (aggKey row = k))).map kval).sum := by
        rw [sumKorrAt]
        have hpred : l.filter (fun row => decide (row.runde = k.1 ∧ row.spieler = k.2))
            = l.filter (fun row => decide (aggKey row = k)) := by
          apply List.filter_congr
          intro x _
          rw [decide_eq_decide]
          constructor
          · intro hand
            exact Prod.ext hand.1 hand.2
          · intro h
            exact ⟨congrArg Prod.fst h, congrArg Prod.snd h⟩
        rw [hpred]
      rw [hsum, ← sum_filter_or l _ _ ?hdis]
      case hdis =>
        intro x hx hand
        obtain ⟨h1, h2⟩ := hand
        rw [decide_eq_true_eq] at h1 h2
        exact hknotin (h1 ▸ h2)
      have hor : l.filter (fun x => decide (aggKey x = k) || decide (aggKey x ∈ K))
          = l.filter (fun row => decide (aggKey row ∈ k :: K)) := by
        apply List.filter_congr
        intro x _
        by_cases h1 : aggKey x = k
        · simp [h1, List.mem_cons]
        · by_cases h2 : aggKey x ∈ K
          · simp [h1, h2, List.mem_cons]
          · simp [h1, h2, List.mem_cons]
      rw [hor]

/-- Helper: df_agg has one row per group key. -/
theorem df_agg_length (df_all : List Row) :
    (df_agg df_all).length = (aggKeys df_all).length := by
  simp [df_agg]

/-- Helper: every df_agg_cum entry's key occurs in the ledger, and its
cumulative value is the total corrected score of its Spieler over all ledger
rows with Runde up to and including its own. -/
theorem df_agg_cum_entry (df_all : List Row) :
    ∀ e ∈ df_agg_cum df_all,
      (e.1.runde, e.1.spieler) ∈ df_all.map aggKey ∧
      e.2 = ((df_all.filter (fun row =>
        decide (row.spieler = e.1.spieler ∧ row.runde ≤ e.1.runde))).map kval).sum := by
  intro e he
  simp only [df_agg_cum] at he
  obtain ⟨i, hi, he⟩ := List.mem_iff_getElem.mp he
  rw [List.getElem_mapIdx] at he
  have hilen : i < (df_agg df_all).length := by
    rw [List.length_mapIdx] at hi
    exact hi
  have hklen : i < (aggKeys df_all).length := by
    have h2 := hilen
    rw [df_agg_length] at h2
    exact h2
  have hget : (df_agg df_all)[i] = AggRow.mk ((aggKeys df_all)[i]).1
      ((aggKeys df_all)[i]).2
      (sumKorrAt df_all ((aggKeys df_all)[i]).1 ((aggKeys df_all)[i]).2) := by
    simp only [df_agg, List.getElem_map]
  have hrunde : ((df_agg df_all)[i]).runde = ((aggKeys df_all)[i]).1 := by
    rw [hget]
  have hspieler : ((df_agg df_all)[i]).spieler = ((aggKeys df_all)[i]).2 := by
    rw [hget]
  subst he
  constructor
  · show ((df_agg df_all)[i].runde, (df_agg df_all)[i].spieler) ∈ df_all.map aggKey
    rw [hrunde, hspieler, Prod.mk.eta]
    exact mem_aggKeys.mp (List.getElem_mem hklen)
  · show ((((df_agg df_all).take (i + 1)).filter (fun b =>
        decide (b.spieler = ((df_agg df_all)[i]).spieler))).map AggRow.korr).sum
      = ((df_all.filter (fun row =>
        decide (row.spieler = ((df_agg df_all)[i]).spieler ∧
          row.runde ≤ ((df_agg df_all)[i]).runde))).map kval).sum
    rw [hrunde, hspieler]
    have htake : (df_agg df_all).take (i + 1)
        = ((aggKeys df_all).take (i + 1)).map (fun k =>
          AggRow.mk k.1 k.2 (sumKorrAt df_all k.1 k.2)) := by
      rw [df_agg, List.map_take]
    rw [htake, List.filter_map, List.map_map]
    have hpred : ((fun b => decide (b.spieler = ((aggKeys df_all)[i]).2)) ∘ (fun k :
        Nat × Nat => AggRow.mk k.1 k.2 (sumKorrAt df_all k.1 k.2)))
        = fun k : Nat × Nat => decide (k.2 = ((aggKeys df_all)[i]).2) := rfl
    have hkorr : (AggRow.korr ∘ (fun k : Nat × Nat =>
        AggRow.mk k.1 k.2 (sumKorrAt df_all k.1 k.2)))
        = fun k : Nat × Nat => sumKorrAt df_all k.1 k.2 := rfl
    rw [hpred, hkorr]
    rw [take_filter_eq_filter_le (aggKeys_strict df_all) hklen]
    rw [sum_over_keys df_all _ ((aggKeys_nodup df_all).filter _)]
    apply congrArg
    apply congrArg
    apply List.filter_congr
    intro x hx
    rw [decide_eq_decide, List.mem_filter]
    constructor
    · rintro ⟨hmem, hcond⟩
      rw [decide_eq_true_eq] at hcond
      exact ⟨hcond.1, hcond.2⟩
    · intro hand
      refine ⟨mem_aggKeys.mpr (List.mem_map_of_mem aggKey hx), ?_⟩
      rw [decide_eq_true_eq]
      exact ⟨hand.1, hand.2⟩

/-- C8: every entry of the aggregation holds, for its (Runde, Spieler), the
cumulative sum of corrected scores up to and including that round; the
entries cover exactly the distinct (Runde, Spieler) pairs of the ledger and
are ordered by nondecreasing round. -/
theorem aggregate_cumulative (df_all : List Row) :
    (∀ e ∈ df_agg_cum df_all,
      e.2 = ((df_all.filter (fun row =>
        decide (row.spieler = e.1.spieler ∧ row.runde ≤ e.1.runde))).map kval).sum) ∧
    ((df_agg_cum df_all).map (fun e => (e.1.runde, e.1.spieler))).Perm
      ((df_all.map aggKey).dedup) ∧
    List.Pairwise (fun e1 e2 => e1.1.runde ≤ e2.1.runde) (df_agg_cum df_all) := by
  refine ⟨fun e he => (df_agg_cum_entry df_all e he).2, ?_, ?_⟩
  · have hmap : (df_agg_cum df_all).map (fun e => (e.1.runde, e.1.spieler))
        = aggKeys df_all := by
      apply List.ext_getElem
      · rw [List.length_map, df_agg_cum_length]
      · intro j h1 h2
        rw [List.getElem_map]
        have hjc : j < (df_agg_cum df_all).length := by
          rw [List.length_map] at h1
          exact h1
        have hjk : j < (aggKeys df_all).length := by
          rw [df_agg_cum_length] at hjc
          exact hjc
        have hjd : j < (df_agg df_all).length := by
          rw [df_agg_length]
          exact hjk
        simp only [df_agg_cum, List.getElem_mapIdx]
        have hget : (df_agg df_all)[j] = AggRow.mk ((aggKeys df_all)[j]).1
            ((aggKeys df_all)[j]).2
            (sumKorrAt df_all ((aggKeys df_all)[j]).1 ((aggKeys df_all)[j]).2) := by
          simp only [df_agg, List.getElem_map]
        show (((df_agg df_all)[j]).runde, ((df_agg df_all)[j]).spieler)
          = (aggKeys df_all)[j]
        rw [hget]
    rw [hmap, aggKeys]
    exact List.mergeSort_perm _ _
  · rw [List.pairwise_iff_getElem]
    intro a b ha hb hab
    have hak : a < (aggKeys df_all).length := by
      rw [df_agg_cum_length] at ha
      exact ha
    have hbk : b < (aggKeys df_all).length := by
      rw [df_agg_cum_length] at hb
      exact hb
    have had : a < (df_agg df_all).length := by
      rw [df_agg_length]
      exact hak
    have hbd : b < (df_agg df_all).length := by
      rw [df_agg_length]
      exact hbk
    have hkeys := List.pairwise_iff_getElem.mp (aggKeys_sorted df_all) a b hak hbk hab
    simp only [keyLE, decide_eq_true_eq] at hkeys
    simp only [df_agg_cum, List.getElem_mapIdx]
    have hgeta : (df_agg df_all)[a] = AggRow.mk ((aggKeys df_all)[a]).1
        ((aggKeys df_all)[a]).2
        (sumKorrAt df_all ((aggKeys df_all)[a]).1 ((aggKeys df_all)[a]).2) := by
      simp only [df_agg, List.getElem_map]
    have hgetb : (df_agg df_all)[b] = AggRow.mk ((aggKeys df_all)[b]).1
        ((aggKeys df_all)[b]).2
        (sumKorrAt df_all ((aggKeys df_all)[b]).1 ((aggKeys df_all)[b]).2) := by
      simp only [df_agg, List.getElem_map]
    show ((df_agg df_all)[a]).runde ≤ ((df_agg df_all)[b]).runde
    rw [hgeta, hgetb]
    show ((aggKeys df_all)[a]).1 ≤ ((aggKeys df_all)[b]).1
    omega

/-- Helper: characterization of one cell of the cumulative pivot table:
fillna(0) yields literal 0 at a missing (Runde, Spieler) pair, and a present
pair holds the cumulative sum over the player's present rows up to that
round. -/
theorem pivot_cell (df_all : List Row) (r p : Nat) :
    ((r, p) ∉ df_all.map aggKey → pivotValue df_all r p = 0) ∧
    ((r, p) ∈ df_all.map aggKey → pivotValue df_all r p
      = ((df_all.filter (fun row =>
          decide (row.spieler = p ∧ row.runde ≤ r))).map kval).sum) := by
  constructor
  · intro hmiss
    rw [pivotValue]
    have hnone : (df_agg_cum df_all).find? (fun e =>
        decide (e.1.runde = r ∧ e.1.spieler = p)) = none := by
      rw [List.find?_eq_none]
      intro e he hcond
      rw [decide_eq_true_eq] at hcond
      obtain ⟨h1, h2⟩ := hcond
      have hkey := (df_agg_cum_entry df_all e he).1
      rw [h1, h2] at hkey
      exact hmiss hkey
    rw [hnone]
  · intro hpres
    rw [pivotValue]
    cases hfind : (df_agg_cum df_all).find? (fun e =>
        decide (e.1.runde = r ∧ e.1.spieler = p)) with
    | none =>
        exfalso
        rw [List.find?_eq_none] at hfind
        have hkeys : (r, p) ∈ aggKeys df_all := mem_aggKeys.mpr hpres
        obtain ⟨i, hklen, hkeq⟩ := List.mem_iff_getElem.mp hkeys
        have hlen : i < (df_agg_cum df_all).length := by
          rw [df_agg_cum_length]
          exact hklen
        have hdlen : i < (df_agg df_all).length := by
          rw [df_agg_length]
          exact hklen
        apply hfind _ (List.getElem_mem hlen)
        rw [decide_eq_true_eq]
        simp only [df_agg_cum, List.getElem_mapIdx]
        have hget : (df_agg df_all)[i] = AggRow.mk ((aggKeys df_all)[i]).1
            ((aggKeys df_all)[i]).2
            (sumKorrAt df_all ((aggKeys df_all)[i]).1 ((aggKeys df_all)[i]).2) := by
          simp only [df_agg, List.getElem_map]
        constructor
        · show ((df_agg df_all)[i]).runde = r
          rw [hget]
          show ((aggKeys df_all)[i]).1 = r
          rw [hkeq]
        · show ((df_agg df_all)[i]).spieler = p
          rw [hget]
          show ((aggKeys df_all)[i]).2 = p
          rw [hkeq]
    | some e =>
        have hmem := List.mem_of_find?_eq_some hfind
        have hcond := List.find?_some hfind
        rw [decide_eq_true_eq] at hcond
        obtain ⟨h1, h2⟩ := hcond
        have hval := (df_agg_cum_entry df_all e hmem).2
        rw [h1, h2] at hval
        exact hval

/-- C9 amended: a (Runde, Spieler) cell absent from the aggregation is
filled with the literal value 0 by fillna(0) — not with the player's carried
running total — while a present cell holds the cumulative sum over only the
player's present rows up to that round (a missing round contributes zero to
later cumulative values). -/
theorem pivot_missing_cell_is_zero (df_all : List Row) (r p : Nat) :
    ((r, p) ∉ df_all.map aggKey → pivotValue df_all r p = 0) ∧
    ((r, p) ∈ df_all.map aggKey → pivotValue df_all r p
      = ((df_all.filter (fun row =>
          decide (row.spieler = p ∧ row.runde ≤ r))).map kval).sum) :=
  pivot_cell df_all r p

/-- Witness for the amended C9 on the sample ledger with a missing round. -/
theorem pivot_missing_cell_is_zero_witness :
    (((2:Nat), (2:Nat)) ∉ sampleMissingLedger.map aggKey ∧
      pivotValue sampleMissingLedger 2 2 = 0) ∧
    (((1:Nat), (2:Nat)) ∈ sampleMissingLedger.map aggKey ∧
      pivotValue sampleMissingLedger 1 2
        = ((sampleMissingLedger.filter (fun row =>
            decide (row.spieler = 2 ∧ row.runde ≤ 1))).map kval).sum) :=
  ⟨⟨by decide, (pivot_missing_cell_is_zero sampleMissingLedger 2 2).1 (by decide)⟩,
    ⟨by decide, (pivot_missing_cell_is_zero sampleMissingLedger 1 2).2 (by decide)⟩⟩

/-- C9 counterexample: in the sample ledger, round 2 exists and player 2's
running total after round 1 is 5, yet the pivot cell for (round 2, player 2)
shows 0, not the carried-forward 5. -/
theorem pivot_missing_round_shows_zero_cex :
    (2:Nat) ∈ sampleMissingLedger.map Row.runde ∧
    pivotValue sampleMissingLedger 1 2 = 5 ∧
    pivotValue sampleMissingLedger 2 2 = 0 ∧
    (5:Rat) ≠ 0 := by
  refine ⟨by decide, ?_, (pivot_cell sampleMissingLedger 2 2).1 (by decide),
    by norm_num⟩
  rw [(pivot_cell sampleMissingLedger 1 2).2 (by decide)]
  simp [sampleMissingLedger, kval]

/-- Witness for C8: the sample series 2, -1, 3 has cumulative series
2, 1, 4, and the general cumulative-sum law instantiates to this ledger. -/
theorem aggregate_cumulative_witness :
    (df_agg_cum sampleSeriesLedger).map (fun e => e.2) = [2, 1, 4] ∧
    (∀ e ∈ df_agg_cum sampleSeriesLedger,
      e.2 = ((sampleSeriesLedger.filter (fun row =>
        decide (row.spieler = e.1.spieler ∧ row.runde ≤ e.1.runde))).map kval).sum) := by
  refine ⟨?_, (aggregate_cumulative sampleSeriesLedger).1⟩
  have hkeys : aggKeys sampleSeriesLedger = [(1, 1), (2, 1), (3, 1)] := by
    rw [aggKeys, show ((sampleSeriesLedger.map aggKey).dedup).mergeSort keyLE
        = (sampleSeriesLedger.map aggKey).dedup from
      List.mergeSort_of_sorted (by decide)]
    decide
  simp only [df_agg_cum, df_agg, hkeys]
  norm_num [List.mapIdx_cons, sumKorrAt, kval, sampleSeriesLedger]

end Ligretto
